import Mathlib

/-!  Verification development for the EchoVerse content pipeline.

Text is modelled as `List Char`; the Python string operations the pipeline
uses (split, strip, lower, join, replace, regex word/sentence scans) are
embedded below, restricted to ASCII where Python is unicode-aware, which is
the range the configuration strings and the properties below live in.  -/

namespace EchoVerse

/-- Python whitespace (ASCII range), as recognised by str.strip, str.split
and the regex class backslash-s. -/
def pyIsSpace (c : Char) : Bool :=
  c == ' ' || c == '\t' || c == '\n' || c == '\r' || c == '\x0b' || c == '\x0c'

/-- Python str.split(sep) with a one-character separator: empty parts are kept,
and the empty string splits to one empty part. -/
def pySplit (sep : Char) : List Char → List (List Char)
  | [] => [[]]
  | c :: rest =>
    if c = sep then [] :: pySplit sep rest
    else
      match pySplit sep rest with
      | [] => [[c]]
      | p :: ps => (c :: p) :: ps

/-- Python str.strip(): drop leading and trailing whitespace. -/
def pyStrip (l : List Char) : List Char :=
  ((l.dropWhile pyIsSpace).reverse.dropWhile pyIsSpace).reverse

/-- Python str.lower() (ASCII model). -/
def pyLower (l : List Char) : List Char := l.map Char.toLower

/-- Python " ".join(parts): a single space between consecutive parts. -/
def joinSpace : List (List Char) → List Char
  | [] => []
  | [w] => w
  | w :: ws => w ++ ' ' :: joinSpace ws

/-- Maximal runs of characters satisfying keep; characters outside such runs
are dropped.  Models Python re.findall over a character class, and
str.split() with no argument when keep is the non-whitespace test. -/
def groupRunsGo (keep : Char → Bool) : List Char → List Char → List (List Char)
  | [], acc => if acc.isEmpty then [] else [acc.reverse]
  | c :: rest, acc =>
    if keep c then groupRunsGo keep rest (c :: acc)
    else if acc.isEmpty then groupRunsGo keep rest []
    else acc.reverse :: groupRunsGo keep rest []

def groupRuns (keep : Char → Bool) (l : List Char) : List (List Char) :=
  groupRunsGo keep l []

/-- Python str.split() with no separator: whitespace-delimited words, with
empty strings dropped. -/
def pyWords (l : List Char) : List (List Char) := groupRuns (fun c => !pyIsSpace c) l

/-- The regex word class (ASCII model): letters, digits and underscore. -/
def isWordChar (c : Char) : Bool := c.isAlpha || c.isDigit || c == '_'

/-- re.findall of word-character runs, as SearchEngine._tokenize_text. -/
def wordTokens (l : List Char) : List (List Char) := groupRuns isWordChar l

/-- Python str.replace(pat, rep): every non-overlapping occurrence, scanned
left to right.  fuel bounds the scan; replaceAll passes the full length, which
suffices because every step consumes at least one character. -/
def replaceAllGo (pat rep : List Char) : Nat → List Char → List Char
  | _, [] => []
  | 0, l => l
  | fuel + 1, c :: rest =>
    if pat.isPrefixOf (c :: rest) && !pat.isEmpty then
      rep ++ replaceAllGo pat rep fuel ((c :: rest).drop pat.length)
    else
      c :: replaceAllGo pat rep fuel rest

def replaceAll (pat rep l : List Char) : List Char := replaceAllGo pat rep l.length l

/-- Sentence-final punctuation tested by the tokenizer regex lookbehind. -/
def isSentEnd (c : Char) : Bool := c == '.' || c == '!' || c == '?'

/-- re.split on a whitespace run preceded by sentence punctuation, the pattern
of TextAnalyzer._simple_sent_tokenize: the text is cut at every maximal
whitespace run whose preceding character is one of . ! ?.  prev is the
character before the cursor (a space initially: no split can happen at the
very start); fuel bounds the scan and sentSplit passes the full length, which
suffices because every step consumes at least one character. -/
def sentSplitGo : Nat → Char → List Char → List Char → List (List Char)
  | _, _, [], acc => [acc.reverse]
  | 0, _, l, acc => [acc.reverse ++ l]
  | fuel + 1, prev, c :: rest, acc =>
    if isSentEnd prev && pyIsSpace c then
      acc.reverse :: sentSplitGo fuel ' ' (rest.dropWhile pyIsSpace) []
    else
      sentSplitGo fuel c rest (c :: acc)

def sentSplit (l : List Char) : List (List Char) := sentSplitGo l.length ' ' l []

/-- TextAnalyzer._simple_sent_tokenize: regex split, strip each piece, keep the
non-blank ones. -/
def simple_sent_tokenize (l : List Char) : List (List Char) :=
  ((sentSplit l).map pyStrip).filter (fun s => !s.isEmpty)

/-- Stable insertion sort used to model Python list.sort and SQL ORDER BY:
le x y means x sorts after (or ties with) y, so the new element x is placed
after every already-inserted y with le x y; equal keys therefore keep their
insertion order, as Python guarantees. -/
def insertSorted {α : Type} (le : α → α → Bool) (x : α) : List α → List α
  | [] => [x]
  | y :: ys => if le x y then y :: insertSorted le x ys else x :: y :: ys

def sortWith {α : Type} (le : α → α → Bool) (l : List α) : List α :=
  l.foldl (fun acc x => insertSorted le x acc) []

/-! ## TextProcessor (text_processor.py): tone rewriting and its simulation -/

/-- AVAILABLE_TONES["Neutral"]["prompt"] of config.py. -/
def neutralPrompt : List Char :=
  "Rewrite the following text in a neutral, clear, and educational tone while maintaining all key information and meaning: ".toList

/-- AVAILABLE_TONES["Suspenseful"]["prompt"] of config.py. -/
def suspensefulPrompt : List Char :=
  "Rewrite the following text with a suspenseful, dramatic tone that builds tension and engages the reader while preserving the original meaning: ".toList

/-- AVAILABLE_TONES["Inspiring"]["prompt"] of config.py. -/
def inspiringPrompt : List Char :=
  "Rewrite the following text with a inspiring, motivational tone that uplifts and encourages while maintaining the original message: ".toList

/-- The keys of AVAILABLE_TONES, in dict insertion order. -/
def toneNames : List String := ["Neutral", "Suspenseful", "Inspiring"]

def tonePromptOf (tone : String) : List Char :=
  if tone = "Neutral" then neutralPrompt
  else if tone = "Suspenseful" then suspensefulPrompt
  else if tone = "Inspiring" then inspiringPrompt
  else []

/-- The tuple ('.', '!', '?') tested by str.endswith in the neutral transform. -/
def sentPunct : List Char := ['.', '!', '?']

/-- One sentence of TextProcessor._apply_neutral_tone: strip, prefix the
explanatory clause when longer than 10 characters (lowercasing the sentence),
then add a final period unless the sentence already ends in . ! or ?. -/
def neutralSeg (s : List Char) : List Char :=
  let c1 := pyStrip s
  let c2 := if 10 < c1.length then "It is important to understand that ".toList ++ pyLower c1 else c1
  if c2.getLastD ' ' ∈ sentPunct then c2 else c2 ++ ['.']

/-- One sentence of TextProcessor._apply_suspenseful_tone: strip, prefix the
tension clause when longer than 15 characters, always append the cliffhanger. -/
def suspensefulSeg (s : List Char) : List Char :=
  let c1 := pyStrip s
  let c2 := if 15 < c1.length then "In the shadows of uncertainty, ".toList ++ pyLower c1 else c1
  c2 ++ "... but what lies ahead remains a mystery.".toList

/-- One sentence of TextProcessor._apply_inspiring_tone: strip, prefix the
motivational clause when longer than 12 characters, always append the
encouragement. -/
def inspiringSeg (s : List Char) : List Char :=
  let c1 := pyStrip s
  let c2 := if 12 < c1.length then "Believe in the power of ".toList ++ pyLower c1 else c1
  c2 ++ "! This is your moment to shine.".toList

/-- The loop shared by the three _apply_*_tone methods: split on '.', transform
each sentence whose strip is non-blank, join the results with single spaces. -/
def applyToneSegs (seg : List Char → List Char) (text : List Char) : List Char :=
  joinSpace (((pySplit '.' text).filter (fun s => !(pyStrip s).isEmpty)).map seg)

def apply_neutral_tone (text : List Char) : List Char := applyToneSegs neutralSeg text

def apply_suspenseful_tone (text : List Char) : List Char := applyToneSegs suspensefulSeg text

def apply_inspiring_tone (text : List Char) : List Char := applyToneSegs inspiringSeg text

/-- TextProcessor._simulate_ai_response: scan the tone prompts in dict order
(Neutral, Suspenseful, Inspiring); the first one that prefixes the prompt
yields the original text (the rest of the prompt, stripped) and the tone;
with no match the tone defaults to neutral and the original text is the whole
unstripped prompt.  Then apply that tone's rule transformation. -/
def simulate_ai_response (prompt : List Char) : List Char :=
  if neutralPrompt.isPrefixOf prompt then
    apply_neutral_tone (pyStrip (prompt.drop neutralPrompt.length))
  else if suspensefulPrompt.isPrefixOf prompt then
    apply_suspenseful_tone (pyStrip (prompt.drop suspensefulPrompt.length))
  else if inspiringPrompt.isPrefixOf prompt then
    apply_inspiring_tone (pyStrip (prompt.drop inspiringPrompt.length))
  else
    apply_neutral_tone prompt

/-- The response cleanup in TextProcessor.rewrite_text: an empty response falls
back to the original text; otherwise the boilerplate marker "Original text:" is
removed everywhere and the result stripped, the marker "Rewritten text:" is
removed the same way when it prefixes the result, and an empty final result
again falls back to the original text. -/
def cleanupResponse (resp original : List Char) : List Char :=
  if resp.isEmpty then original
  else
    let r1 := pyStrip (replaceAll "Original text:".toList [] resp)
    let r2 :=
      if "Rewritten text:".toList.isPrefixOf r1 then
        pyStrip (replaceAll "Rewritten text:".toList [] r1)
      else r1
    if r2.isEmpty then original else r2

/-- TextProcessor.rewrite_text on the no-configured-service path (the default
AI_SERVICE is huggingface and an empty api key makes _make_huggingface_request
return _simulate_ai_response(prompt) at once): a tone outside AVAILABLE_TONES
raises ValueError before anything else; a valid tone builds
prompt = tone prompt + original text, simulates the rewrite and cleans it up. -/
def rewrite_text (originalText : List Char) (tone : String) : Except String (List Char) :=
  if tone ∈ toneNames then
    Except.ok (cleanupResponse (simulate_ai_response (tonePromptOf tone ++ originalText)) originalText)
  else
    Except.error "Invalid tone. Must be one of: Neutral, Suspenseful, Inspiring"

/-! ## TextAnalyzer.shorten_text (tts_engine.py) -/

/-- sentences[1:-1], the interior sentences. -/
def middleOf (sentences : List (List Char)) : List (List Char) :=
  (sentences.drop 1).dropLast

/-- The key_sentences selection of TextAnalyzer.shorten_text: the first
sentence, then the last sentence, then (while fewer than maxSentences are
chosen) interior sentences longest first, Python sort being stable. -/
def keySentences (sentences : List (List Char)) (maxSentences : Nat) : List (List Char) :=
  let k1 := match sentences with
    | [] => []
    | s :: _ => [s]
  let k2 := if 1 < sentences.length then k1 ++ [sentences.getLastD []] else k1
  if 2 < sentences.length ∧ k2.length < maxSentences then
    k2 ++ (sortWith (fun a b => decide (a.length ≤ b.length)) (middleOf sentences)).take
      (maxSentences - k2.length)
  else k2

/-- TextAnalyzer.shorten_text on the regex sentence-tokenizer path: blank text
is returned as is; text of at most maxSentences sentences is returned as is;
otherwise the key sentences are joined with spaces, and if that exceeds
maxWords words it is cut to the first maxWords words with an ellipsis. -/
def shorten_text (text : List Char) (maxSentences maxWords : Nat) : List Char :=
  if (pyStrip text).isEmpty then text
  else
    let sentences := simple_sent_tokenize text
    if sentences.length ≤ maxSentences then text
    else
      let shortened := joinSpace (keySentences sentences maxSentences)
      let words := pyWords shortened
      if maxWords < words.length then joinSpace (words.take maxWords) ++ "...".toList
      else shortened

/-! ## SearchEngine (search_engine.py): relational state and operations

The sqlite store is modelled as explicit lists of rows; AUTOINCREMENT ids are
a counter that never reuses values, and CURRENT_TIMESTAMP is a logical clock
that advances on every write, so created_at values of distinct writes differ
(within one real second sqlite would tie them, which only coarsens the
ORDER BY; none of the properties below depends on a tie).  REAL durations are
carried as opaque numerals, never computed with. -/

structure ContentRow where
  id : Nat
  title : List Char
  originalText : List Char
  rewrittenText : List Char
  tone : List Char
  voice : List Char
  audioPath : List Char
  createdAt : Nat
  wordCount : Nat
  durationMinutes : Nat
deriving DecidableEq, Repr

structure SearchRow where
  contentId : Nat
  token : List Char
  frequency : Nat
deriving DecidableEq, Repr

structure SearchDB where
  content : List ContentRow
  searchIndex : List SearchRow
  nextId : Nat
  now : Nat
deriving DecidableEq, Repr

/-- The freshly created store: empty tables, first AUTOINCREMENT id 1. -/
def initialDB : SearchDB := { content := [], searchIndex := [], nextId := 1, now := 0 }

/-- The arguments of SearchEngine.index_content. -/
structure IndexArgs where
  title : List Char
  originalText : List Char
  rewrittenText : List Char
  tone : List Char
  voice : List Char
  audioPath : List Char
  wordCount : Nat
  durationMinutes : Nat
deriving DecidableEq, Repr

/-- original_text + " " + rewritten_text, the text _index_text_content gets. -/
def combinedText (a : IndexArgs) : List Char := a.originalText ++ ' ' :: a.rewrittenText

/-- One step of the token-frequency dict: dicts keep first-insertion order. -/
def bumpToken (t : List Char) : List (List Char × Nat) → List (List Char × Nat)
  | [] => [(t, 1)]
  | (k, n) :: rest => if k = t then (k, n + 1) :: rest else (k, n) :: bumpToken t rest

/-- SearchEngine._index_text_content token table: lowercase the text, take the
word tokens, keep those longer than 2 characters, count frequencies. -/
def tokenFreqs (text : List Char) : List (List Char × Nat) :=
  (wordTokens (pyLower text)).foldl (fun acc t => if 2 < t.length then bumpToken t acc else acc) []

/-- The search_index rows _index_text_content inserts for one content id. -/
def newSearchRows (cid : Nat) (a : IndexArgs) : List SearchRow :=
  (tokenFreqs (combinedText a)).map (fun p => { contentId := cid, token := p.1, frequency := p.2 })

/-- The UPDATE statement of index_content: every row WHERE audio_path matches
gets the new field values and a refreshed created_at; id and audio_path are
untouched. -/
def updateRow (a : IndexArgs) (now : Nat) (row : ContentRow) : ContentRow :=
  if row.audioPath = a.audioPath then
    { row with title := a.title, originalText := a.originalText,
               rewrittenText := a.rewrittenText, tone := a.tone, voice := a.voice,
               wordCount := a.wordCount, durationMinutes := a.durationMinutes,
               createdAt := now }
  else row

/-- SearchEngine.index_content: SELECT the row with this audio_path; if one
exists, UPDATE its fields (created_at refreshed) and DELETE its search_index
rows; else INSERT a new row under the next id.  Either way the regenerated
token rows are then inserted for that id. -/
def index_content (db : SearchDB) (a : IndexArgs) : SearchDB :=
  match db.content.find? (fun r => decide (r.audioPath = a.audioPath)) with
  | some r =>
    { db with
      content := db.content.map (updateRow a db.now),
      searchIndex := db.searchIndex.filter (fun s => decide (s.contentId ≠ r.id)) ++ newSearchRows r.id a,
      now := db.now + 1 }
  | none =>
    { db with
      content := db.content ++
        [{ id := db.nextId, title := a.title, originalText := a.originalText,
           rewrittenText := a.rewrittenText, tone := a.tone, voice := a.voice,
           audioPath := a.audioPath, createdAt := db.now,
           wordCount := a.wordCount, durationMinutes := a.durationMinutes }],
      searchIndex := db.searchIndex ++ newSearchRows db.nextId a,
      nextId := db.nextId + 1,
      now := db.now + 1 }

/-- SearchEngine.delete_content: DELETE the search_index rows of the id, then
the content row; the Bool is cursor.rowcount > 0 of that last DELETE. -/
def delete_content (db : SearchDB) (cid : Nat) : SearchDB × Bool :=
  let c := db.content.filter (fun r => decide (r.id ≠ cid))
  ({ db with searchIndex := db.searchIndex.filter (fun s => decide (s.contentId ≠ cid)),
             content := c, now := db.now + 1 },
   decide (c.length < db.content.length))

/-- One call on the store: the two mutating operations of SearchEngine. -/
inductive SEOp where
  | doIndex (a : IndexArgs)
  | doDelete (cid : Nat)

def applyOp (db : SearchDB) : SEOp → SearchDB
  | SEOp.doIndex a => index_content db a
  | SEOp.doDelete cid => (delete_content db cid).1

def runOps (ops : List SEOp) : SearchDB := ops.foldl applyOp initialDB

/-- Referential integrity: every search_index row points at a content row. -/
def refsValid (db : SearchDB) : Prop :=
  ∀ s ∈ db.searchIndex, ∃ r ∈ db.content, r.id = s.contentId

/-! ## SearchEngine query preprocessing and search_content -/

/-- re.match of the pattern https?://[^ \t..]+ anchored at the start: the
scheme prefix followed by at least one non-whitespace character. -/
def matchesUrlPattern (q : List Char) : Bool :=
  let test (pre : List Char) : Bool :=
    pre.isPrefixOf q &&
      (match q.drop pre.length with
       | [] => false
       | c :: _ => !pyIsSpace c)
  test "https://".toList || test "http://".toList

/-- The part before the first sep and, when sep occurs, the part after it. -/
def splitFirst (sep : Char) : List Char → List Char × Option (List Char)
  | [] => ([], none)
  | c :: rest =>
    if c = sep then ([], some rest)
    else
      let r := splitFirst sep rest
      (c :: r.1, r.2)

def takeBefore (sep : Char) (l : List Char) : List Char := (splitFirst sep l).1

def isSchemeChar (c : Char) : Bool := c.isAlpha || c.isDigit || c == '+' || c == '-' || c == '.'

/-- The scheme removal of urllib.parse.urlsplit: when the text before the
first colon is a non-empty run of scheme characters starting with a letter,
the scheme (and colon) are dropped. -/
def dropScheme (q : List Char) : List Char :=
  match splitFirst ':' q with
  | (before, some after) =>
    if !before.isEmpty && before.all isSchemeChar &&
        (match before with | c :: _ => c.isAlpha | [] => false) then after
    else q
  | (_, none) => q

/-- _splitnetloc: the authority extends to the first of / ? #; this returns
the rest of the url starting at that delimiter. -/
def afterNetloc : List Char → List Char
  | [] => []
  | c :: rest => if c = '/' || c = '?' || c = '#' then c :: rest else afterNetloc rest

/-- The params handling of urllib.parse.urlparse (_splitparams): when a
semicolon occurs in the last path segment, the path is cut there. -/
def dropParams (p : List Char) : List Char :=
  if ';' ∈ p then
    if '/' ∈ p then
      let i := p.length - 1 - ((p.reverse.findIdx? (fun c => c = '/')).getD 0)
      match (p.drop i).findIdx? (fun c => c = ';') with
      | some j => p.take (i + j)
      | none => p
    else p.take (((p.findIdx? (fun c => c = ';'))).getD p.length)
  else p

/-- urllib.parse.urlparse(q).path: drop the scheme, then the // authority up
to the first of / ? #, then the fragment (first #), then the query (first ?),
then the params of the last segment. -/
def urlPath (q : List Char) : List Char :=
  let u1 := dropScheme q
  let u2 := if "//".toList.isPrefixOf u1 then afterNetloc (u1.drop 2) else u1
  dropParams (takeBefore '?' (takeBefore '#' u2))

/-- The boilerplate path segments skipped by _extract_keywords_from_url. -/
def boilerplateSegments : List (List Char) :=
  ["wiki".toList, "wikipedia".toList, "page".toList, "article".toList]

/-- part.replace applied to underscore, hyphen and percent-20, each becoming
one space, in that order. -/
def cleanUrlPart (part : List Char) : List Char :=
  replaceAll "%20".toList [' '] (replaceAll "-".toList [' '] (replaceAll "_".toList [' '] part))

/-- SearchEngine._extract_keywords_from_url: a query matching the URL pattern
is parsed; walking the path segments from the end, the first non-empty segment
outside the boilerplate set is cleaned and returned (the loop breaks at it, so
the joined keyword list is that one segment); with no such segment, and for a
non-URL query, the query itself is returned. -/
def extract_keywords_from_url (q : List Char) : List Char :=
  if matchesUrlPattern q then
    match (pySplit '/' (urlPath q)).reverse.find?
        (fun p => !p.isEmpty && !(boilerplateSegments.contains p)) with
    | some p => cleanUrlPart p
    | none => q
  else q

/-- Truthiness of an optional string filter argument: Python treats None and
the empty string alike here. -/
def truthyFilter : Option (List Char) → Bool
  | none => false
  | some s => !s.isEmpty

def daySeconds : Nat := 86400

/-- Whether _get_date_filter_condition knows the (lowercased) filter, i.e.
whether it contributes a WHERE clause. -/
def dateFilterKnown (f : List Char) : Bool :=
  f == "today".toList || f == "week".toList || f == "month".toList || f == "year".toList

/-- The date conditions of _get_date_filter_condition on numeric timestamps:
same day for today, within 7/30/365 days otherwise. -/
def dateMatches (f : List Char) (now createdAt : Nat) : Bool :=
  if f == "today".toList then createdAt / daySeconds == now / daySeconds
  else if f == "week".toList then decide (now ≤ createdAt + 7 * daySeconds)
  else if f == "month".toList then decide (now ≤ createdAt + 30 * daySeconds)
  else if f == "year".toList then decide (now ≤ createdAt + 365 * daySeconds)
  else true

/-- The WHERE clauses search_content collects for the supplied filters. -/
def whereClauseCount (toneF voiceF dateF : Option (List Char)) : Nat :=
  (if truthyFilter toneF then 1 else 0) + (if truthyFilter voiceF then 1 else 0) +
    (if truthyFilter dateF && dateFilterKnown (pyLower (dateF.getD [])) then 1 else 0)

/-- The row tests of those clauses. -/
def matchesFilters (now : Nat) (toneF voiceF dateF : Option (List Char)) (r : ContentRow) : Bool :=
  (if truthyFilter toneF then r.tone == toneF.getD [] else true) &&
    (if truthyFilter voiceF then r.voice == voiceF.getD [] else true) &&
    (if truthyFilter dateF && dateFilterKnown (pyLower (dateF.getD [])) then
      dateMatches (pyLower (dateF.getD [])) now r.createdAt
    else true)

/-- SearchEngine.search_content.  The query is URL-preprocessed and tokenized.
With no tokens the code builds "SELECT ... FROM content c" and then appends
" AND clause" for each filter WITHOUT a WHERE keyword; for one or more filters
that SQL is malformed, sqlite3 raises OperationalError (near "AND") at
execute, and the enclosing except handler returns the empty list.  With no
tokens and no filters the recent rows are returned newest first.  With tokens,
rows joined to a matching index entry and passing the filters are scored by
the summed frequency of their matching tokens and ordered by score then
recency, newest first.  LIMIT applies in every successful branch. -/
def search_content (db : SearchDB) (query : List Char)
    (toneF voiceF dateF : Option (List Char)) (limit : Nat) : List ContentRow :=
  let processed := extract_keywords_from_url query
  let searchTokens := wordTokens (pyLower processed)
  if searchTokens.isEmpty then
    if 0 < whereClauseCount toneF voiceF dateF then []
    else (sortWith (fun x y => decide (x.createdAt ≤ y.createdAt)) db.content).take limit
  else
    let matchRow (r : ContentRow) (s : SearchRow) : Bool :=
      s.contentId == r.id && searchTokens.contains s.token
    let cands := db.content.filter (fun r =>
      db.searchIndex.any (matchRow r) && matchesFilters db.now toneF voiceF dateF r)
    let relevance (r : ContentRow) : Nat :=
      ((db.searchIndex.filter (matchRow r)).map SearchRow.frequency).foldl (· + ·) 0
    let le (x y : ContentRow) : Bool :=
      decide (relevance x < relevance y) ||
        (relevance x == relevance y && decide (x.createdAt ≤ y.createdAt))
    (sortWith le cands).take limit

/-! ## TTSEngine voice resolution (tts_engine.py) and utils.generate_filename -/

/-- AVAILABLE_VOICES["English"] voice names, in dict order. -/
def englishVoices : List String := ["Lisa", "Michael", "Allison"]

/-- self.voices.get(language, self.voices["English"]) over the AVAILABLE_VOICES
table of config.py: the voice-name lists per configured language, any other
language falling back to the English set. -/
def voicesForLanguage (language : String) : List String :=
  if language = "English" then englishVoices
  else if language = "Telugu" then ["Alexa", "Mazeo", "Default"]
  else if language = "Hindi" then ["Default"]
  else if language = "Spanish" then ["Default"]
  else englishVoices

/-- The keys of AVAILABLE_VOICES. -/
def voiceTableLanguages : List String := ["English", "Telugu", "Hindi", "Spanish"]

/-- The voice resolution at the head of TTSEngine.generate_audio: look up the
voices for the language (defaulting to English), and replace a voice absent
from that set by list(language_voices.keys())[0], the language's first voice.
none would mean the indexing [0] fails, which requires an empty voice list. -/
def resolveVoice (language voice : String) : Option String :=
  let lv := voicesForLanguage language
  if voice ∈ lv then some voice else lv.head?

/-- The module-level names bound in src/utils.py: its imports (os, re, uuid,
streamlit as st, typing.Optional and the config names) and its own defs.
time is not among them: utils.py never imports time (the import was added to
tts_engine.py instead), so the statement timestamp = int(time.time()) in
generate_filename raises NameError when the call evaluates it. -/
def utilsModuleBindings : List String :=
  ["os", "re", "uuid", "st", "Optional", "TEMP_DIR", "AUDIO_DIR", "ASSETS_DIR",
   "SUPPORTED_FILE_TYPES", "MAX_TEXT_LENGTH", "setup_directories", "validate_text_input",
   "process_uploaded_file", "generate_filename", "clean_text_for_display", "truncate_text",
   "estimate_listening_time", "format_time", "sanitize_filename", "get_file_size",
   "create_podcast_audio", "is_audio_file", "get_available_audio_files"]

/-- re.sub of the non-alphanumeric class with the empty string. -/
def sanitizeToken (s : List Char) : List Char := s.filter (fun c => c.isAlpha || c.isDigit)

/-- utils.generate_filename of src/utils.py.  timestamp stands for the value
int(time.time()) would produce and shortId for str(uuid.uuid4())[:8]; both are
oracle inputs because they come from the environment.  The name time is looked
up in the module bindings first, exactly as Python resolves the global: since
utils.py does not bind it, the call raises NameError before building the name. -/
def generate_filename (base tone voice ext : List Char) (timestamp : Nat)
    (shortId : List Char) : Except String (List Char) :=
  if utilsModuleBindings.contains "time" then
    Except.ok (base ++ '_' :: (sanitizeToken tone ++ '_' :: (sanitizeToken voice ++ '_' ::
      ((toString timestamp).toList ++ '_' :: (shortId ++ ext)))))
  else
    Except.error "NameError: name time is not defined"

/-- Concrete first indexing call used by the C4 witness. -/
def c4Args1 : IndexArgs :=
  { title := "First".toList, originalText := "alpha beta gamma".toList,
    rewrittenText := "alpha beta gamma".toList, tone := "Neutral".toList,
    voice := "Lisa".toList, audioPath := "temp/audio/a.mp3".toList,
    wordCount := 3, durationMinutes := 0 }

/-- Concrete second indexing call (same path, different text) for C4. -/
def c4Args2 : IndexArgs :=
  { title := "Second".toList, originalText := "delta epsilon words".toList,
    rewrittenText := "delta epsilon words".toList, tone := "Suspenseful".toList,
    voice := "Michael".toList, audioPath := "temp/audio/a.mp3".toList,
    wordCount := 3, durationMinutes := 0 }

/-- The one record of the store the C6 theorem searches. -/
def c6Args : IndexArgs :=
  { title := "Hello world".toList, originalText := "hello world sample text".toList,
    rewrittenText := "hello world sample text".toList, tone := "Neutral".toList,
    voice := "Lisa".toList, audioPath := "temp/audio/one.mp3".toList,
    wordCount := 4, durationMinutes := 0 }

/-! ## Lemmas: characters, strip and split -/

theorem mem_dropWhile_of_neg {α : Type} {p : α → Bool} {c : α} :
    ∀ {l : List α}, c ∈ l → p c = false → c ∈ l.dropWhile p := by
  intro l hc hp
  induction l with
  | nil => cases hc
  | cons d rest ih =>
    rcases List.mem_cons.mp hc with rfl | hmem
    · simp [List.dropWhile_cons, hp]
    · by_cases hd : p d = true
      · simpa [List.dropWhile_cons, hd] using ih hmem
      · simp only [Bool.not_eq_true] at hd
        simp [List.dropWhile_cons, hd, hmem]

theorem mem_of_mem_pyStrip {c : Char} {l : List Char} (h : c ∈ pyStrip l) : c ∈ l := by
  unfold pyStrip at h
  rw [List.mem_reverse] at h
  have h1 := (List.dropWhile_sublist (l := (l.dropWhile pyIsSpace).reverse)
    (p := pyIsSpace)).subset h
  rw [List.mem_reverse] at h1
  exact (List.dropWhile_sublist (l := l) (p := pyIsSpace)).subset h1

theorem mem_pyStrip_of_mem {c : Char} {l : List Char} (hc : c ∈ l)
    (hp : pyIsSpace c = false) : c ∈ pyStrip l := by
  unfold pyStrip
  rw [List.mem_reverse]
  refine mem_dropWhile_of_neg ?_ hp
  rw [List.mem_reverse]
  exact mem_dropWhile_of_neg hc hp

theorem pyStrip_eq_nil_iff {l : List Char} :
    pyStrip l = [] ↔ ∀ c ∈ l, pyIsSpace c = true := by
  constructor
  · intro h c hc
    by_contra hs
    have hs' : pyIsSpace c = false := by
      cases hx : pyIsSpace c
      · rfl
      · exact absurd hx hs
    have := mem_pyStrip_of_mem hc hs'
    rw [h] at this
    cases this
  · intro h
    unfold pyStrip
    have h1 : l.dropWhile pyIsSpace = [] := List.dropWhile_eq_nil_iff.mpr h
    simp [h1]

theorem pyStrip_ne_nil {l : List Char} {c : Char} (hc : c ∈ l)
    (hp : pyIsSpace c = false) : pyStrip l ≠ [] := by
  intro h
  rw [pyStrip_eq_nil_iff.mp h c hc] at hp
  cases hp

theorem pySplit_ne_nil (sep : Char) (l : List Char) : pySplit sep l ≠ [] := by
  induction l with
  | nil => simp [pySplit]
  | cons c rest ih =>
    unfold pySplit
    by_cases h : c = sep
    · simp [h]
    · simp only [h, if_false]
      cases hs : pySplit sep rest with
      | nil => simp
      | cons p ps => simp

theorem mem_of_mem_pySplit {sep c : Char} :
    ∀ {l : List Char} {p : List Char}, p ∈ pySplit sep l → c ∈ p → c ∈ l ∧ c ≠ sep := by
  intro l
  induction l with
  | nil =>
    intro p hp hc
    simp [pySplit] at hp
    subst hp
    cases hc
  | cons d rest ih =>
    intro p hp hc
    unfold pySplit at hp
    by_cases hd : d = sep
    · simp only [hd, if_true] at hp
      rcases List.mem_cons.mp hp with rfl | hp'
      · cases hc
      · have := ih hp' hc
        exact ⟨List.mem_cons_of_mem _ this.1, this.2⟩
    · simp only [hd, if_false] at hp
      cases hs : pySplit sep rest with
      | nil => exact absurd hs (pySplit_ne_nil sep rest)
      | cons q qs =>
        rw [hs] at hp
        rcases List.mem_cons.mp hp with rfl | hp'
        · rcases List.mem_cons.mp hc with rfl | hc'
          · exact ⟨List.mem_cons_self _ _, hd⟩
          · have := ih (by rw [hs]; exact List.mem_cons_self _ _) hc'
            exact ⟨List.mem_cons_of_mem _ this.1, this.2⟩
        · have := ih (by rw [hs]; exact List.mem_cons_of_mem _ hp') hc
          exact ⟨List.mem_cons_of_mem _ this.1, this.2⟩

theorem exists_mem_pySplit {sep c : Char} :
    ∀ {l : List Char}, c ∈ l → c ≠ sep → ∃ p ∈ pySplit sep l, c ∈ p := by
  intro l
  induction l with
  | nil => intro h; cases h
  | cons d rest ih =>
    intro hc hne
    unfold pySplit
    by_cases hd : d = sep
    · rcases List.mem_cons.mp hc with rfl | hc'
      · exact absurd hd hne
      · rcases ih hc' hne with ⟨p, hp, hcp⟩
        exact ⟨p, by simp [hd, List.mem_cons_of_mem _ hp], hcp⟩
    · simp only [hd, if_false]
      cases hs : pySplit sep rest with
      | nil => exact absurd hs (pySplit_ne_nil sep rest)
      | cons q qs =>
        rcases List.mem_cons.mp hc with rfl | hc'
        · exact ⟨c :: q, List.mem_cons_self _ _, List.mem_cons_self _ _⟩
        · rcases ih hc' hne with ⟨p, hp, hcp⟩
          rw [hs] at hp
          rcases List.mem_cons.mp hp with rfl | hp'
          · exact ⟨d :: p, List.mem_cons_self _ _, List.mem_cons_of_mem _ hcp⟩
          · exact ⟨p, List.mem_cons_of_mem _ hp', hcp⟩

/-! ## Lemmas: joinSpace -/

theorem joinSpace_cons {w : List Char} {ws : List (List Char)} (h : ws ≠ []) :
    joinSpace (w :: ws) = w ++ ' ' :: joinSpace ws := by
  cases ws with
  | nil => exact absurd rfl h
  | cons v vs => rfl

theorem joinSpace_ne_nil {ws : List (List Char)} (hne : ws ≠ [])
    (hall : ∀ w ∈ ws, w ≠ []) : joinSpace ws ≠ [] := by
  induction ws with
  | nil => exact absurd rfl hne
  | cons w ws ih =>
    cases ws with
    | nil =>
      simpa [joinSpace] using hall w (List.mem_cons_self _ _)
    | cons v vs =>
      rw [joinSpace_cons (by simp)]
      intro h
      have hw : w = [] := by
        cases w with
        | nil => rfl
        | cons a as => simp at h
      exact hall w (List.mem_cons_self _ _) hw

theorem suffix_joinSpace {S : List Char} :
    ∀ {ws : List (List Char)}, ws ≠ [] → (∀ w ∈ ws, S <:+ w) → S <:+ joinSpace ws := by
  intro ws
  induction ws with
  | nil => intro h; exact absurd rfl h
  | cons w ws ih =>
    intro _ hall
    cases ws with
    | nil => simpa [joinSpace] using hall w (List.mem_cons_self _ _)
    | cons v vs =>
      rw [joinSpace_cons (by simp)]
      have hs : S <:+ joinSpace (v :: vs) :=
        ih (by simp) (fun u hu => hall u (List.mem_cons_of_mem _ hu))
      rcases hs with ⟨t, ht⟩
      exact ⟨w ++ ' ' :: t, by simp [← ht]⟩

theorem joinSpace_concat_last :
    ∀ {ws : List (List Char)} (t : List Char), ws ≠ [] →
      joinSpace ws ++ t = joinSpace (ws.dropLast ++ [ws.getLastD [] ++ t]) := by
  intro ws
  induction ws with
  | nil => intro t h; exact absurd rfl h
  | cons w ws ih =>
    intro t _
    cases ws with
    | nil => simp [joinSpace]
    | cons v vs =>
      have hvs : (v :: vs) ≠ [] := by simp
      rw [joinSpace_cons hvs]
      have hd : (w :: v :: vs).dropLast = w :: (v :: vs).dropLast := by simp
      have hg : (w :: v :: vs).getLastD [] = (v :: vs).getLastD [] := by
        simp [List.getLastD_cons]
      rw [hd, hg]
      have htail : (v :: vs).dropLast ++ [(v :: vs).getLastD [] ++ t] ≠ [] := by simp
      have hrhs : (w :: (v :: vs).dropLast) ++ [(v :: vs).getLastD [] ++ t]
          = w :: ((v :: vs).dropLast ++ [(v :: vs).getLastD [] ++ t]) := by
        rw [List.cons_append]
      rw [hrhs, joinSpace_cons htail, ← ih t hvs]
      simp [List.append_assoc]

/-! ## Lemmas: groupRuns and pyWords -/

theorem groupRunsGo_nil (keep : Char → Bool) (acc : List Char) :
    groupRunsGo keep [] acc = if acc.isEmpty then [] else [acc.reverse] := rfl

theorem groupRunsGo_cons (keep : Char → Bool) (c : Char) (rest acc : List Char) :
    groupRunsGo keep (c :: rest) acc =
      if keep c then groupRunsGo keep rest (c :: acc)
      else if acc.isEmpty then groupRunsGo keep rest []
      else acc.reverse :: groupRunsGo keep rest [] := rfl

theorem groupRunsGo_sound {keep : Char → Bool} :
    ∀ {l acc : List Char}, (∀ c ∈ acc, keep c = true) →
      ∀ w ∈ groupRunsGo keep l acc, w ≠ [] ∧ ∀ c ∈ w, keep c = true := by
  intro l
  induction l with
  | nil =>
    intro acc hacc w hw
    unfold groupRunsGo at hw
    by_cases h : acc.isEmpty
    · simp [h] at hw
    · simp [h] at hw
      subst hw
      constructor
      · intro hnil
        rw [List.isEmpty_iff] at h
        rw [← List.reverse_reverse acc, hnil] at h
        simp at h
      · intro c hc
        exact hacc c (List.mem_reverse.mp hc)
  | cons d rest ih =>
    intro acc hacc w hw
    unfold groupRunsGo at hw
    by_cases hd : keep d
    · rw [if_pos hd] at hw
      refine ih ?_ w hw
      intro c hc
      rcases List.mem_cons.mp hc with rfl | hc'
      · exact hd
      · exact hacc c hc'
    · rw [if_neg hd] at hw
      by_cases he : acc.isEmpty
      · rw [if_pos he] at hw
        exact ih (by intro c hc; cases hc) w hw
      · rw [if_neg he] at hw
        rcases List.mem_cons.mp hw with rfl | hw'
        · constructor
          · intro hnil
            rw [List.isEmpty_iff] at he
            rw [← List.reverse_reverse acc, hnil] at he
            simp at he
          · intro c hc
            exact hacc c (List.mem_reverse.mp hc)
        · exact ih (by intro c hc; cases hc) w hw'

theorem pyWords_sound {l : List Char} :
    ∀ w ∈ pyWords l, w ≠ [] ∧ ∀ c ∈ w, pyIsSpace c = false := by
  intro w hw
  have := @groupRunsGo_sound (fun c => !pyIsSpace c) l [] (by intro c hc; cases hc) w hw
  refine ⟨this.1, ?_⟩
  intro c hc
  have h2 := this.2 c hc
  simpa using h2

theorem groupRunsGo_append_keep {keep : Char → Bool} :
    ∀ {w : List Char} {s acc : List Char}, (∀ c ∈ w, keep c = true) →
      groupRunsGo keep (w ++ s) acc = groupRunsGo keep s (w.reverse ++ acc) := by
  intro w
  induction w with
  | nil => intro s acc _; simp
  | cons c cs ih =>
    intro s acc hall
    have hc : keep c = true := hall c (List.mem_cons_self _ _)
    rw [List.cons_append, groupRunsGo_cons, if_pos hc,
      ih (fun d hd => hall d (List.mem_cons_of_mem _ hd))]
    simp [List.append_assoc]

theorem pyWords_joinSpace :
    ∀ {ws : List (List Char)},
      (∀ w ∈ ws, w ≠ [] ∧ ∀ c ∈ w, pyIsSpace c = false) →
      pyWords (joinSpace ws) = ws := by
  intro ws
  induction ws with
  | nil => intro _; rfl
  | cons w ws ih =>
    intro hall
    have hw := hall w (List.mem_cons_self _ _)
    have hkeep : ∀ c ∈ w, (fun c => !pyIsSpace c) c = true := by
      intro c hc
      simp [hw.2 c hc]
    cases ws with
    | nil =>
      show pyWords w = [w]
      unfold pyWords groupRuns
      rw [show w = w ++ [] by simp, groupRunsGo_append_keep hkeep]
      simp
      unfold groupRunsGo
      rw [if_neg (by simpa [List.isEmpty_iff] using hw.1)]
      simp
    | cons v vs =>
      rw [joinSpace_cons (by simp)]
      show groupRunsGo _ (w ++ ' ' :: joinSpace (v :: vs)) [] = _
      rw [groupRunsGo_append_keep hkeep]
      simp only [List.append_nil]
      show groupRunsGo _ (' ' :: joinSpace (v :: vs)) w.reverse = _
      unfold groupRunsGo
      rw [if_neg (by simp [pyIsSpace])]
      rw [if_neg (by simpa [List.isEmpty_iff] using hw.1)]
      rw [List.reverse_reverse]
      have := ih (fun u hu => hall u (List.mem_cons_of_mem _ hu))
      unfold pyWords groupRuns at this
      rw [this]

/-! ## Lemmas: prefixes -/

theorem not_isPrefixOf_append {a b : List Char}
    (h1 : a.isPrefixOf b = false) (h2 : b.isPrefixOf a = false) (t : List Char) :
    a.isPrefixOf (b ++ t) = false := by
  by_contra h
  have h' : a.isPrefixOf (b ++ t) = true := by
    cases hx : a.isPrefixOf (b ++ t)
    · exact absurd hx h
    · rfl
  have hp : a <+: b ++ t := List.isPrefixOf_iff_prefix.mp h'
  have hb : b <+: b ++ t := List.prefix_append _ _
  rcases List.prefix_or_prefix_of_prefix hp hb with hab | hba
  · rw [← List.isPrefixOf_iff_prefix] at hab
    rw [hab] at h1
    cases h1
  · rw [← List.isPrefixOf_iff_prefix] at hba
    rw [hba] at h2
    cases h2

theorem isPrefixOf_append_self (a t : List Char) : a.isPrefixOf (a ++ t) = true :=
  List.isPrefixOf_iff_prefix.mpr (List.prefix_append _ _)

/-! ## Lemmas: tone transforms and the simulated rewrite -/

theorem neutralSeg_ne_nil {s : List Char} (h : pyStrip s ≠ []) : neutralSeg s ≠ [] := by
  simp only [neutralSeg]
  have hc2 : (if 10 < (pyStrip s).length then
      "It is important to understand that ".toList ++ pyLower (pyStrip s)
    else pyStrip s) ≠ [] := by
    by_cases h10 : 10 < (pyStrip s).length
    · rw [if_pos h10]
      intro h0
      rcases List.append_eq_nil.mp h0 with ⟨h1, -⟩
      exact absurd h1 (by decide)
    · rwa [if_neg h10]
  by_cases hp : (if 10 < (pyStrip s).length then
      "It is important to understand that ".toList ++ pyLower (pyStrip s)
    else pyStrip s).getLastD ' ' ∈ sentPunct
  · rwa [if_pos hp]
  · rw [if_neg hp]
    simp

theorem suspensefulSeg_ne_nil (s : List Char) : suspensefulSeg s ≠ [] := by
  simp only [suspensefulSeg]
  intro h
  rcases List.append_eq_nil.mp h with ⟨-, h2⟩
  exact absurd h2 (by decide)

theorem inspiringSeg_ne_nil (s : List Char) : inspiringSeg s ≠ [] := by
  simp only [inspiringSeg]
  intro h
  rcases List.append_eq_nil.mp h with ⟨-, h2⟩
  exact absurd h2 (by decide)

theorem suspensefulSeg_suffix (s : List Char) :
    "... but what lies ahead remains a mystery.".toList <:+ suspensefulSeg s := by
  simp only [suspensefulSeg]
  exact ⟨_, rfl⟩

theorem inspiringSeg_suffix (s : List Char) :
    "! This is your moment to shine.".toList <:+ inspiringSeg s := by
  simp only [inspiringSeg]
  exact ⟨_, rfl⟩

theorem applyToneSegs_ne_nil_iff {seg : List Char → List Char}
    (hseg : ∀ s, pyStrip s ≠ [] → seg s ≠ []) (text : List Char) :
    applyToneSegs seg text ≠ [] ↔ ∃ c ∈ text, pyIsSpace c = false ∧ c ≠ '.' := by
  unfold applyToneSegs
  constructor
  · intro hne
    have hFne : (pySplit '.' text).filter (fun s => !(pyStrip s).isEmpty) ≠ [] := by
      intro h0
      rw [h0] at hne
      exact hne rfl
    obtain ⟨s, hsF⟩ := List.exists_mem_of_ne_nil _ hFne
    have hs := List.mem_filter.mp hsF
    have hstrip : pyStrip s ≠ [] := by simpa [List.isEmpty_iff] using hs.2
    have hex : ∃ c ∈ s, pyIsSpace c = false := by
      by_contra hno
      push_neg at hno
      apply hstrip
      rw [pyStrip_eq_nil_iff]
      intro c hc
      have := hno c hc
      cases hx : pyIsSpace c
      · exact absurd hx this
      · rfl
    obtain ⟨c, hcs, hcsp⟩ := hex
    have hmem := mem_of_mem_pySplit hs.1 hcs
    exact ⟨c, hmem.1, hcsp, hmem.2⟩
  · rintro ⟨c, hc, hsp, hdot⟩
    obtain ⟨p, hp, hcp⟩ := exists_mem_pySplit hc hdot
    have hpstrip : pyStrip p ≠ [] := pyStrip_ne_nil hcp hsp
    have hpF : p ∈ (pySplit '.' text).filter (fun s => !(pyStrip s).isEmpty) :=
      List.mem_filter.mpr ⟨hp, by simpa [List.isEmpty_iff] using hpstrip⟩
    apply joinSpace_ne_nil
    · simp only [ne_eq, List.map_eq_nil_iff]
      exact List.ne_nil_of_mem hpF
    · intro w hw
      rcases List.mem_map.mp hw with ⟨s, hsF, rfl⟩
      exact hseg s (by simpa [List.isEmpty_iff] using (List.mem_filter.mp hsF).2)

theorem applyToneSegs_suffix {seg : List Char → List Char} {S : List Char}
    (hsuf : ∀ s, S <:+ seg s) (text : List Char)
    (hne : applyToneSegs seg text ≠ []) : S <:+ applyToneSegs seg text := by
  unfold applyToneSegs at hne ⊢
  have hM : ((pySplit '.' text).filter (fun s => !(pyStrip s).isEmpty)).map seg ≠ [] := by
    intro h0
    rw [h0] at hne
    exact hne rfl
  refine suffix_joinSpace hM ?_
  intro w hw
  rcases List.mem_map.mp hw with ⟨s, -, rfl⟩
  exact hsuf s

theorem simulate_of_neutral (text : List Char) :
    simulate_ai_response (neutralPrompt ++ text) = apply_neutral_tone (pyStrip text) := by
  have h1 : neutralPrompt.isPrefixOf (neutralPrompt ++ text) = true :=
    isPrefixOf_append_self _ _
  simp only [simulate_ai_response, h1, if_true, List.drop_left]

theorem simulate_of_suspenseful (text : List Char) :
    simulate_ai_response (suspensefulPrompt ++ text) = apply_suspenseful_tone (pyStrip text) := by
  have h1 : neutralPrompt.isPrefixOf (suspensefulPrompt ++ text) = false :=
    not_isPrefixOf_append (by decide) (by decide) text
  have h2 : suspensefulPrompt.isPrefixOf (suspensefulPrompt ++ text) = true :=
    isPrefixOf_append_self _ _
  simp only [simulate_ai_response, h1, h2, Bool.false_eq_true, if_false, if_true, List.drop_left]

theorem simulate_of_inspiring (text : List Char) :
    simulate_ai_response (inspiringPrompt ++ text) = apply_inspiring_tone (pyStrip text) := by
  have h1 : neutralPrompt.isPrefixOf (inspiringPrompt ++ text) = false :=
    not_isPrefixOf_append (by decide) (by decide) text
  have h2 : suspensefulPrompt.isPrefixOf (inspiringPrompt ++ text) = false :=
    not_isPrefixOf_append (by decide) (by decide) text
  have h3 : inspiringPrompt.isPrefixOf (inspiringPrompt ++ text) = true :=
    isPrefixOf_append_self _ _
  simp only [simulate_ai_response, h1, h2, h3, Bool.false_eq_true, if_false, if_true,
    List.drop_left]

theorem applyTone_strip_ne_nil_iff {seg : List Char → List Char}
    (hseg : ∀ s, pyStrip s ≠ [] → seg s ≠ []) (text : List Char) :
    applyToneSegs seg (pyStrip text) ≠ [] ↔ ∃ c ∈ text, pyIsSpace c = false ∧ c ≠ '.' := by
  rw [applyToneSegs_ne_nil_iff hseg]
  constructor
  · rintro ⟨c, hc, hs, hd⟩
    exact ⟨c, mem_of_mem_pyStrip hc, hs, hd⟩
  · rintro ⟨c, hc, hs, hd⟩
    exact ⟨c, mem_pyStrip_of_mem hc hs, hs, hd⟩

/-- C2: rewrite_text raises the typed validation error exactly for tones
outside the enumerated set Neutral, Suspenseful, Inspiring; for every tone of
the set it returns a rewritten text (the simulated path is total, and the code
catches internal exceptions, falling back to the original text), and an
invalid tone is never silently replaced by a default tone. -/
theorem c2_rewrite_text_invalid_tone_iff :
    ∀ (text : List Char) (tone : String),
      ((∃ e, rewrite_text text tone = Except.error e) ↔ tone ∉ toneNames) ∧
      (tone ∈ toneNames → ∃ s, rewrite_text text tone = Except.ok s) := by
  intro text tone
  by_cases h : tone ∈ toneNames
  · constructor
    · simp [rewrite_text, h]
    · intro _
      refine ⟨cleanupResponse (simulate_ai_response (tonePromptOf tone ++ text)) text, ?_⟩
      simp [rewrite_text, h]
  · constructor
    · simp [rewrite_text, h]
    · intro hmem
      exact absurd hmem h

set_option maxRecDepth 20000 in
/-- C3 counterexample: the claim fails on the code.  For the Neutral tone the
simulated rewrite of the non-empty text "Hi." is literally "Hi." again (the
sentence is at most 10 characters, so no clause is prefixed, and it already
ends in a period), refuting the never-returns-the-input part; and for the
Suspenseful tone the two-sentence text "A. B." is rewritten to a text of four
sentences (each cliffhanger suffix adds a sentence boundary), refuting the
sentence-count-within-one part. -/
theorem c3_counterexample_literal_passthrough :
    rewrite_text "Hi.".toList "Neutral" = Except.ok "Hi.".toList ∧
    ("Hi.".toList : List Char) ≠ [] ∧
    (simple_sent_tokenize (simulate_ai_response (suspensefulPrompt ++ "A. B.".toList))).length = 4 ∧
    (simple_sent_tokenize "A. B.".toList).length = 2 :=
  ⟨rfl, by decide, by decide, by decide⟩

/-- C3 amended: for every supported tone (Neutral, Suspenseful, Inspiring) and
every text, the no-service simulated rewrite is the deterministic function
below of the tone and the text alone; its output is non-empty exactly when the
text has a character that is neither whitespace nor a period (i.e. when some
period-separated sentence is non-blank); and the Suspenseful and Inspiring
outputs always end in their fixed cliffhanger and encouragement suffixes.  The
originally claimed bounds do not hold: the output can equal a non-empty input
verbatim (Neutral on short sentences) and the sentence count can grow beyond
the input count plus one (the appended suffixes introduce new sentence
boundaries). -/
theorem c3_simulated_rewrite_shape :
    (∀ text : List Char,
      (simulate_ai_response (neutralPrompt ++ text) ≠ [] ↔
        ∃ c ∈ text, pyIsSpace c = false ∧ c ≠ '.')) ∧
    (∀ text : List Char,
      (simulate_ai_response (suspensefulPrompt ++ text) ≠ [] ↔
        ∃ c ∈ text, pyIsSpace c = false ∧ c ≠ '.') ∧
      (simulate_ai_response (suspensefulPrompt ++ text) ≠ [] →
        "... but what lies ahead remains a mystery.".toList <:+
          simulate_ai_response (suspensefulPrompt ++ text))) ∧
    (∀ text : List Char,
      (simulate_ai_response (inspiringPrompt ++ text) ≠ [] ↔
        ∃ c ∈ text, pyIsSpace c = false ∧ c ≠ '.') ∧
      (simulate_ai_response (inspiringPrompt ++ text) ≠ [] →
        "! This is your moment to shine.".toList <:+
          simulate_ai_response (inspiringPrompt ++ text))) := by
  refine ⟨?_, ?_, ?_⟩
  · intro text
    rw [simulate_of_neutral]
    exact applyTone_strip_ne_nil_iff (fun s hs => neutralSeg_ne_nil hs) text
  · intro text
    rw [simulate_of_suspenseful]
    constructor
    · exact applyTone_strip_ne_nil_iff (fun s _ => suspensefulSeg_ne_nil s) text
    · exact applyToneSegs_suffix suspensefulSeg_suffix _
  · intro text
    rw [simulate_of_inspiring]
    constructor
    · exact applyTone_strip_ne_nil_iff (fun s _ => inspiringSeg_ne_nil s) text
    · exact applyToneSegs_suffix inspiringSeg_suffix _

/-! ## Lemmas: sentence split and shorten_text -/

theorem sentSplitGo_nil (fuel : Nat) (prev : Char) (acc : List Char) :
    sentSplitGo fuel prev [] acc = [acc.reverse] := by
  cases fuel <;> rfl

theorem sentSplitGo_succ (fuel : Nat) (prev c : Char) (rest acc : List Char) :
    sentSplitGo (fuel + 1) prev (c :: rest) acc =
      if isSentEnd prev && pyIsSpace c then
        acc.reverse :: sentSplitGo fuel ' ' (rest.dropWhile pyIsSpace) []
      else sentSplitGo fuel c rest (c :: acc) := rfl

theorem sentSplitGo_chars :
    ∀ (fuel : Nat) (prev : Char) (l acc : List Char) (p : List Char),
      p ∈ sentSplitGo fuel prev l acc → ∀ c ∈ p, c ∈ l ∨ c ∈ acc := by
  intro fuel
  induction fuel with
  | zero =>
    intro prev l acc p hp c hc
    cases l with
    | nil =>
      rw [sentSplitGo_nil] at hp
      rcases List.mem_singleton.mp hp with rfl
      exact Or.inr (List.mem_reverse.mp hc)
    | cons d rest =>
      have hp' : p = acc.reverse ++ (d :: rest) := List.mem_singleton.mp hp
      subst hp'
      rcases List.mem_append.mp hc with hc' | hc'
      · exact Or.inr (List.mem_reverse.mp hc')
      · exact Or.inl hc'
  | succ n ih =>
    intro prev l acc p hp c hc
    cases l with
    | nil =>
      rw [sentSplitGo_nil] at hp
      rcases List.mem_singleton.mp hp with rfl
      exact Or.inr (List.mem_reverse.mp hc)
    | cons d rest =>
      rw [sentSplitGo_succ] at hp
      by_cases hcond : (isSentEnd prev && pyIsSpace d) = true
      · rw [if_pos hcond] at hp
        rcases List.mem_cons.mp hp with rfl | hp'
        · exact Or.inr (List.mem_reverse.mp hc)
        · rcases ih ' ' (rest.dropWhile pyIsSpace) [] p hp' c hc with h | h
          · exact Or.inl (List.mem_cons_of_mem _
              ((List.dropWhile_sublist (p := pyIsSpace)).subset h))
          · cases h
      · rw [if_neg hcond] at hp
        rcases ih d rest (d :: acc) p hp c hc with h | h
        · exact Or.inl (List.mem_cons_of_mem _ h)
        · rcases List.mem_cons.mp h with rfl | h'
          · exact Or.inl (List.mem_cons_self _ _)
          · exact Or.inr h'

theorem pyStrip_ne_nil_of_tokenize_pos {text : List Char}
    (h : 0 < (simple_sent_tokenize text).length) : ¬((pyStrip text).isEmpty = true) := by
  have hne : simple_sent_tokenize text ≠ [] := by
    intro h0
    rw [h0] at h
    cases h
  obtain ⟨x, hx⟩ := List.exists_mem_of_ne_nil _ hne
  have hx' := List.mem_filter.mp hx
  rcases List.mem_map.mp hx'.1 with ⟨p, hp, rfl⟩
  have hstrip : pyStrip p ≠ [] := by simpa [List.isEmpty_iff] using hx'.2
  have hex : ∃ c ∈ p, pyIsSpace c = false := by
    by_contra hno
    push_neg at hno
    apply hstrip
    rw [pyStrip_eq_nil_iff]
    intro c hc
    cases hxc : pyIsSpace c
    · exact absurd hxc (hno c hc)
    · rfl
  obtain ⟨c, hcp, hcsp⟩ := hex
  have hct : c ∈ text := by
    rcases sentSplitGo_chars text.length ' ' text [] p hp c hcp with h' | h'
    · exact h'
    · cases h'
  simp only [List.isEmpty_iff]
  exact pyStrip_ne_nil hct hcsp

theorem joinSpace_append_concat :
    ∀ (ws : List (List Char)) (a t : List Char),
      joinSpace (ws ++ [a]) ++ t = joinSpace (ws ++ [a ++ t]) := by
  intro ws
  induction ws with
  | nil => intro a t; simp [joinSpace]
  | cons w ws ih =>
    intro a t
    rw [List.cons_append, List.cons_append,
      joinSpace_cons (by simp), joinSpace_cons (by simp)]
    rw [List.append_assoc, List.cons_append]
    rw [show (joinSpace (ws ++ [a]) ++ t) = joinSpace (ws ++ [a ++ t]) from ih a t]

theorem ellipsis_chars : ∀ c ∈ ("...".toList : List Char), pyIsSpace c = false := by
  decide

/-- C7: shorten_text is a no-op whenever the sentence count is at most
maxSentences: both the blank early return and the short-text branch return the
input text itself, exactly unchanged. -/
theorem c7_shorten_short_text_noop :
    ∀ (text : List Char) (maxSentences maxWords : Nat),
      (simple_sent_tokenize text).length ≤ maxSentences →
      shorten_text text maxSentences maxWords = text := by
  intro text maxS maxW h
  simp only [shorten_text]
  by_cases hb : (pyStrip text).isEmpty = true
  · rw [if_pos hb]
  · rw [if_neg hb, if_pos h]

set_option maxRecDepth 20000 in
/-- C7 witness: the two-sentence text "One. Two." is returned unchanged by
shorten_text with the default budgets. -/
theorem c7_shorten_short_text_noop_witness :
    (simple_sent_tokenize "One. Two.".toList).length ≤ 3 ∧
    shorten_text "One. Two.".toList 3 100 = "One. Two.".toList :=
  ⟨by decide, c7_shorten_short_text_noop "One. Two.".toList 3 100 (by decide)⟩

/-- C8: for texts of more than 3 sentences, shorten_text with the default
budgets returns at most 100 whitespace-separated words, and whenever the
space-joined key sentences exceed 100 words the result is exactly their first
100 words with the ellipsis appended. -/
theorem c8_shorten_word_budget :
    ∀ text : List Char, 3 < (simple_sent_tokenize text).length →
      (pyWords (shorten_text text 3 100)).length ≤ 100 ∧
      (100 < (pyWords (joinSpace (keySentences (simple_sent_tokenize text) 3))).length →
        shorten_text text 3 100 =
          joinSpace ((pyWords (joinSpace (keySentences (simple_sent_tokenize text) 3))).take 100)
            ++ "...".toList) := by
  intro text h3
  have hb : ¬((pyStrip text).isEmpty = true) :=
    pyStrip_ne_nil_of_tokenize_pos (Nat.lt_of_lt_of_le (by norm_num) (Nat.le_of_lt h3))
  have hshort : shorten_text text 3 100 =
      (if 100 < (pyWords (joinSpace (keySentences (simple_sent_tokenize text) 3))).length then
        joinSpace ((pyWords (joinSpace (keySentences (simple_sent_tokenize text) 3))).take 100)
          ++ "...".toList
      else joinSpace (keySentences (simple_sent_tokenize text) 3)) := by
    simp only [shorten_text]
    rw [if_neg hb, if_neg (not_le.mpr h3)]
  by_cases hw : 100 < (pyWords (joinSpace (keySentences (simple_sent_tokenize text) 3))).length
  · rw [hshort, if_pos hw]
    refine ⟨?_, fun _ => rfl⟩
    have hlen : ((pyWords (joinSpace (keySentences (simple_sent_tokenize text) 3))).take 100).length
        = 100 := by
      rw [List.length_take]
      omega
    rcases List.eq_nil_or_concat
        ((pyWords (joinSpace (keySentences (simple_sent_tokenize text) 3))).take 100) with
      h0 | ⟨L, b, hLb⟩
    · rw [h0] at hlen
      cases hlen
    · rw [List.concat_eq_append] at hLb
      rw [hLb, joinSpace_append_concat]
      have hsound := pyWords_sound (l := joinSpace (keySentences (simple_sent_tokenize text) 3))
      have hsub : ∀ w ∈ L ++ [b],
          w ∈ pyWords (joinSpace (keySentences (simple_sent_tokenize text) 3)) := by
        intro w hw'
        rw [← hLb] at hw'
        exact List.take_subset _ _ hw'
      have hwords : pyWords (joinSpace (L ++ [b ++ "...".toList])) = L ++ [b ++ "...".toList] := by
        apply pyWords_joinSpace
        intro w hw'
        rcases List.mem_append.mp hw' with hmem | hmem
        · exact hsound w (hsub w (List.mem_append_left _ hmem))
        · rcases List.mem_singleton.mp hmem with rfl
          have hbmem := hsound b (hsub b (List.mem_append_right _ (List.mem_singleton.mpr rfl)))
          constructor
          · intro hnil
            rcases List.append_eq_nil.mp hnil with ⟨-, h2⟩
            exact absurd h2 (by decide)
          · intro c hc
            rcases List.mem_append.mp hc with hc' | hc'
            · exact hbmem.2 c hc'
            · exact ellipsis_chars c hc'
      rw [hwords]
      have : (L ++ [b]).length = 100 := by rw [← hLb]; exact hlen
      simp only [List.length_append, List.length_singleton] at this ⊢
      omega
  · rw [hshort, if_neg hw]
    exact ⟨not_lt.mp hw, fun hc => absurd hc hw⟩

set_option maxRecDepth 60000 in
/-- C8 witness: a concrete five-sentence text is shortened within the word
budget (its key sentences stay under 100 words, so the ellipsis branch is not
taken and the bound holds trivially at 6 words). -/
theorem c8_shorten_word_budget_witness :
    3 < (simple_sent_tokenize "One. Two. Three. Four. Five.".toList).length ∧
    ((pyWords (shorten_text "One. Two. Three. Four. Five.".toList 3 100)).length ≤ 100 ∧
      (100 < (pyWords (joinSpace
          (keySentences (simple_sent_tokenize "One. Two. Three. Four. Five.".toList) 3))).length →
        shorten_text "One. Two. Three. Four. Five.".toList 3 100 =
          joinSpace ((pyWords (joinSpace
            (keySentences (simple_sent_tokenize "One. Two. Three. Four. Five.".toList) 3))).take 100)
            ++ "...".toList)) :=
  ⟨by decide, c8_shorten_word_budget "One. Two. Three. Four. Five.".toList (by decide)⟩

/-! ## Voice resolution and filename generation -/

/-- C1: for every language and voice name, the voice resolution of
generate_audio yields some voice that is valid for the resolved language:
an unknown language falls back to the English voice set, a known language
keeps its own set, a listed voice is kept, and an unlisted voice is replaced
by the first voice of the resolved set; no unknown-voice error is possible. -/
theorem c1_generate_audio_voice_fallback :
    ∀ language voice : String,
      ∃ v, resolveVoice language voice = some v ∧ v ∈ voicesForLanguage language ∧
        (voice ∈ voicesForLanguage language → v = voice) ∧
        (voice ∉ voicesForLanguage language →
          (voicesForLanguage language).head? = some v) ∧
        (language ∉ voiceTableLanguages → voicesForLanguage language = englishVoices) := by
  intro language voice
  have hne : voicesForLanguage language ≠ [] := by
    unfold voicesForLanguage
    split_ifs <;> simp [englishVoices]
  have hlang : language ∉ voiceTableLanguages → voicesForLanguage language = englishVoices := by
    intro h
    simp only [voiceTableLanguages, List.mem_cons, List.mem_singleton, not_or] at h
    obtain ⟨h1, h2, h3, h4⟩ := h
    simp [voicesForLanguage, h1, h2, h3, h4]
  by_cases hv : voice ∈ voicesForLanguage language
  · exact ⟨voice, by simp [resolveVoice, hv], hv, fun _ => rfl, fun h => absurd hv h, hlang⟩
  · obtain ⟨v, hvhead⟩ : ∃ v, (voicesForLanguage language).head? = some v := by
      cases h : voicesForLanguage language with
      | nil => exact absurd h hne
      | cons a as => exact ⟨a, rfl⟩
    have hvmem : v ∈ voicesForLanguage language := by
      cases h : voicesForLanguage language with
      | nil => exact absurd h hne
      | cons a as =>
        rw [h] at hvhead
        rcases Option.some.inj hvhead with rfl
        exact List.mem_cons_self _ _
    exact ⟨v, by simp [resolveVoice, hv, hvhead], hvmem,
      fun hmem => absurd hmem hv, fun _ => hvhead, hlang⟩

/-- C10: utils.generate_filename cannot return a filename at all: utils.py
never imports time, so the very first statement of the function raises
NameError for every input; in particular it raises at the concrete call
generate_filename("audiobook", "Neutral", "Lisa", ".mp3"). -/
theorem c10_generate_filename_name_error :
    (∀ (base tone voice ext : List Char) (timestamp : Nat) (shortId : List Char),
      generate_filename base tone voice ext timestamp shortId =
        Except.error "NameError: name time is not defined") ∧
    generate_filename "audiobook".toList "Neutral".toList "Lisa".toList ".mp3".toList
        1700000000 "a1b2c3d4".toList =
      Except.error "NameError: name time is not defined" :=
  ⟨fun _ _ _ _ _ _ => rfl, rfl⟩

/-! ## Lemmas: the search store -/

theorem updateRow_id (a : IndexArgs) (now : Nat) (row : ContentRow) :
    (updateRow a now row).id = row.id := by
  unfold updateRow
  split <;> rfl

theorem updateRow_audioPath (a : IndexArgs) (now : Nat) (row : ContentRow) :
    (updateRow a now row).audioPath = row.audioPath := by
  unfold updateRow
  split <;> rfl

theorem updateRow_of_match {a : IndexArgs} {row : ContentRow} (now : Nat)
    (h : row.audioPath = a.audioPath) :
    (updateRow a now row).title = a.title ∧
    (updateRow a now row).originalText = a.originalText ∧
    (updateRow a now row).rewrittenText = a.rewrittenText ∧
    (updateRow a now row).tone = a.tone ∧
    (updateRow a now row).voice = a.voice ∧
    (updateRow a now row).wordCount = a.wordCount := by
  unfold updateRow
  rw [if_pos h]
  exact ⟨rfl, rfl, rfl, rfl, rfl, rfl⟩

theorem mem_newSearchRows {s : SearchRow} {cid : Nat} {a : IndexArgs}
    (h : s ∈ newSearchRows cid a) :
    s.contentId = cid ∧ s.token ∈ (tokenFreqs (combinedText a)).map Prod.fst := by
  rcases List.mem_map.mp h with ⟨p, hp, rfl⟩
  exact ⟨rfl, List.mem_map_of_mem _ hp⟩

theorem countP_eq_one_unique {α : Type} {p : α → Bool} :
    ∀ {l : List α}, l.countP p = 1 →
      ∀ {x y : α}, x ∈ l → p x = true → y ∈ l → p y = true → x = y := by
  intro l
  induction l with
  | nil => intro h; simp [List.countP_nil] at h
  | cons a l ih =>
    intro h1 x y hx hpx hy hpy
    by_cases ha : p a = true
    · have hl0 : l.countP p = 0 := by
        rw [List.countP_cons, if_pos ha] at h1
        omega
      have hnone := List.countP_eq_zero.mp hl0
      rcases List.mem_cons.mp hx with rfl | hx'
      · rcases List.mem_cons.mp hy with rfl | hy'
        · rfl
        · exact absurd hpy (hnone y hy')
      · exact absurd hpx (hnone x hx')
    · have h1' : l.countP p = 1 := by
        rw [List.countP_cons, if_neg ha] at h1
        omega
      rcases List.mem_cons.mp hx with rfl | hx'
      · exact absurd hpx ha
      · rcases List.mem_cons.mp hy with rfl | hy'
        · exact absurd hpy ha
        · exact ih h1' hx' hpx hy' hpy

/-- One call of index_content leaves the matched-path row count at the old
count when a row existed, and at one when none did. -/
theorem index_content_countP (db : SearchDB) (a : IndexArgs) :
    (index_content db a).content.countP (fun r => decide (r.audioPath = a.audioPath)) =
      if db.content.countP (fun r => decide (r.audioPath = a.audioPath)) = 0 then 1
      else db.content.countP (fun r => decide (r.audioPath = a.audioPath)) := by
  unfold index_content
  cases hfind : db.content.find? (fun r => decide (r.audioPath = a.audioPath)) with
  | none =>
    have hzero : db.content.countP (fun r => decide (r.audioPath = a.audioPath)) = 0 := by
      rw [List.countP_eq_zero]
      exact List.find?_eq_none.mp hfind
    simp only [hzero, if_pos rfl]
    rw [List.countP_append, hzero]
    simp [List.countP_cons]
  | some r =>
    have hpr := List.find?_some hfind
    have hpos : 0 < db.content.countP (fun r => decide (r.audioPath = a.audioPath)) := by
      rw [List.countP_pos_iff]
      exact ⟨r, List.mem_of_find?_eq_some hfind, hpr⟩
    rw [if_neg (by omega)]
    simp only
    rw [List.countP_map]
    apply List.countP_congr
    intro row _
    simp [Function.comp, updateRow_audioPath]

/-- After index_content the row count for the argument path is positive. -/
theorem index_content_countP_pos (db : SearchDB) (a : IndexArgs) :
    0 < (index_content db a).content.countP (fun r => decide (r.audioPath = a.audioPath)) := by
  rw [index_content_countP]
  split <;> omega

theorem refsValid_index_content {db : SearchDB} (h : refsValid db) (a : IndexArgs) :
    refsValid (index_content db a) := by
  unfold index_content
  cases hfind : db.content.find? (fun r => decide (r.audioPath = a.audioPath)) with
  | none =>
    intro s hs
    rcases List.mem_append.mp hs with hs' | hs'
    · rcases h s hs' with ⟨r, hr, hid⟩
      exact ⟨r, List.mem_append_left _ hr, hid⟩
    · refine ⟨_, List.mem_append_right _ (List.mem_singleton.mpr rfl), ?_⟩
      rw [(mem_newSearchRows hs').1]
  | some r =>
    intro s hs
    rcases List.mem_append.mp hs with hs' | hs'
    · rcases h s (List.mem_filter.mp hs').1 with ⟨r', hr', hid⟩
      exact ⟨updateRow a db.now r', List.mem_map_of_mem _ hr', by rw [updateRow_id, hid]⟩
    · refine ⟨updateRow a db.now r, List.mem_map_of_mem _ (List.mem_of_find?_eq_some hfind), ?_⟩
      rw [updateRow_id, (mem_newSearchRows hs').1]

theorem refsValid_delete_content {db : SearchDB} (h : refsValid db) (cid : Nat) :
    refsValid (delete_content db cid).1 := by
  intro s hs
  simp only [delete_content] at hs
  have hs' := List.mem_filter.mp hs
  rcases h s hs'.1 with ⟨r, hr, hid⟩
  refine ⟨r, ?_, hid⟩
  simp only [delete_content]
  refine List.mem_filter.mpr ⟨hr, ?_⟩
  have hne : s.contentId ≠ cid := by simpa using hs'.2
  simp [hid, hne]

theorem refsValid_applyOp {db : SearchDB} (h : refsValid db) (op : SEOp) :
    refsValid (applyOp db op) := by
  cases op with
  | doIndex a => exact refsValid_index_content h a
  | doDelete cid => exact refsValid_delete_content h cid

/-- C5: referential integrity of the search index.  After any sequence of
index_content and delete_content calls from the fresh store, every
search_index row points at an existing content row; delete_content removes
every index row of the id together with the content row; and on an update,
index_content leaves the updated record only token rows regenerated from the
new text (the old ones are deleted before the insert). -/
theorem c5_search_index_referential_integrity :
    (∀ ops : List SEOp, refsValid (runOps ops)) ∧
    (∀ (db : SearchDB) (cid : Nat),
      (∀ s ∈ (delete_content db cid).1.searchIndex, s.contentId ≠ cid) ∧
      (∀ r ∈ (delete_content db cid).1.content, r.id ≠ cid)) ∧
    (∀ (db : SearchDB) (a : IndexArgs) (r : ContentRow),
      db.content.find? (fun row => decide (row.audioPath = a.audioPath)) = some r →
      ∀ s ∈ (index_content db a).searchIndex, s.contentId = r.id →
        s.token ∈ (tokenFreqs (combinedText a)).map Prod.fst) := by
  refine ⟨?_, ?_, ?_⟩
  · have hgen : ∀ (ops : List SEOp) (db : SearchDB), refsValid db →
        refsValid (ops.foldl applyOp db) := by
      intro ops
      induction ops with
      | nil => exact fun db h => h
      | cons op rest ih =>
        intro db h
        exact ih _ (refsValid_applyOp h op)
    intro ops
    exact hgen ops initialDB (by intro s hs; cases hs)
  · intro db cid
    constructor
    · intro s hs
      simp only [delete_content] at hs
      simpa using (List.mem_filter.mp hs).2
    · intro r hr
      simp only [delete_content] at hr
      simpa using (List.mem_filter.mp hr).2
  · intro db a r hfind s hs hsid
    unfold index_content at hs
    rw [hfind] at hs
    simp only at hs
    rcases List.mem_append.mp hs with hs' | hs'
    · have := (List.mem_filter.mp hs').2
      rw [hsid] at this
      simp at this
    · exact (mem_newSearchRows hs').2

/-- C4: index_content is an upsert keyed on audio_path.  Starting from any
store holding at most one row for the path, indexing the path twice (with
possibly different texts) leaves the total row count unchanged by the second
call and exactly one row for the path; that row carries the second call's
fields; and a token of the first call's text that does not occur in the
second call's text has no search_index row for that record afterwards. -/
theorem c4_index_content_upsert :
    ∀ (db0 : SearchDB) (a1 a2 : IndexArgs) (tok : List Char),
      a1.audioPath = a2.audioPath →
      db0.content.countP (fun r => decide (r.audioPath = a2.audioPath)) ≤ 1 →
      tok ∈ (tokenFreqs (combinedText a1)).map Prod.fst →
      tok ∉ (tokenFreqs (combinedText a2)).map Prod.fst →
      ((index_content (index_content db0 a1) a2).content.length =
        (index_content db0 a1).content.length) ∧
      ((index_content (index_content db0 a1) a2).content.countP
        (fun r => decide (r.audioPath = a2.audioPath)) = 1) ∧
      (∃ r ∈ (index_content (index_content db0 a1) a2).content,
        r.audioPath = a2.audioPath ∧ r.title = a2.title ∧
        r.originalText = a2.originalText ∧ r.rewrittenText = a2.rewrittenText ∧
        r.tone = a2.tone ∧ r.voice = a2.voice ∧ r.wordCount = a2.wordCount) ∧
      (∀ r ∈ (index_content (index_content db0 a1) a2).content, r.audioPath = a2.audioPath →
        ∀ s ∈ (index_content (index_content db0 a1) a2).searchIndex,
          s.contentId = r.id → s.token ≠ tok) := by
  intro db0 a1 a2 tok hpath hcount hin1 hnotin2
  have hpatheq : (fun r : ContentRow => decide (r.audioPath = a1.audioPath)) =
      (fun r : ContentRow => decide (r.audioPath = a2.audioPath)) := by
    rw [hpath]
  set db1 := index_content db0 a1 with hdb1
  have hcount1 : db1.content.countP (fun r => decide (r.audioPath = a2.audioPath)) = 1 := by
    rw [hdb1, ← hpatheq, index_content_countP, hpatheq]
    rcases Nat.le_one_iff_eq_zero_or_eq_one.mp hcount with h0 | h1
    · rw [h0]
      simp
    · rw [h1]
      simp
  have hpos1 : 0 < db1.content.countP (fun r => decide (r.audioPath = a2.audioPath)) := by
    omega
  obtain ⟨r1, hr1mem, hr1pred⟩ := List.countP_pos_iff.mp hpos1
  have hfind1 : (db1.content.find? (fun r => decide (r.audioPath = a2.audioPath))).isSome =
      true := by
    rw [List.find?_isSome]
    exact ⟨r1, hr1mem, hr1pred⟩
  obtain ⟨rf, hrf⟩ : ∃ rf, db1.content.find? (fun r => decide (r.audioPath = a2.audioPath)) =
      some rf := Option.isSome_iff_exists.mp hfind1
  have hrfmem : rf ∈ db1.content := List.mem_of_find?_eq_some hrf
  have hrfpred := List.find?_some hrf
  have hrfpath : rf.audioPath = a2.audioPath := of_decide_eq_true hrfpred
  have hdb2 : index_content db1 a2 =
      { db1 with
        content := db1.content.map (updateRow a2 db1.now),
        searchIndex := db1.searchIndex.filter (fun s => decide (s.contentId ≠ rf.id)) ++
          newSearchRows rf.id a2,
        now := db1.now + 1 } := by
    unfold index_content
    rw [hrf]
  refine ⟨?_, ?_, ?_, ?_⟩
  · rw [hdb2]
    simp
  · have := index_content_countP db1 a2
    rw [hcount1] at this
    simpa using this
  · refine ⟨updateRow a2 db1.now rf, ?_, ?_⟩
    · rw [hdb2]
      exact List.mem_map_of_mem _ hrfmem
    · have hflds := updateRow_of_match (a := a2) db1.now hrfpath
      exact ⟨by rw [updateRow_audioPath, hrfpath], hflds.1, hflds.2.1, hflds.2.2.1,
        hflds.2.2.2.1, hflds.2.2.2.2.1, hflds.2.2.2.2.2⟩
  · intro r hr hrpath s hsmem hsid
    rw [hdb2] at hr hsmem
    simp only at hr hsmem
    rcases List.mem_map.mp hr with ⟨x, hx, rfl⟩
    have hxpath : x.audioPath = a2.audioPath := by
      rw [← updateRow_audioPath a2 db1.now x]
      exact hrpath
    have hxeq : x = rf :=
      countP_eq_one_unique hcount1 hx (decide_eq_true hxpath) hrfmem (decide_eq_true hrfpath)
    rcases List.mem_append.mp hsmem with hs' | hs'
    · have h2 := (List.mem_filter.mp hs').2
      rw [hsid, updateRow_id, hxeq] at h2
      simp at h2
    · intro htok
      apply hnotin2
      rw [← htok]
      exact (mem_newSearchRows hs').2

set_option maxRecDepth 40000 in
/-- C4 witness: indexing the same path twice from the fresh store, with the
token alpha occurring only in the first text, satisfies every hypothesis of
the upsert theorem, and the second call indeed leaves the row count unchanged. -/
theorem c4_index_content_upsert_witness :
    (c4Args1.audioPath = c4Args2.audioPath ∧
      initialDB.content.countP (fun r => decide (r.audioPath = c4Args2.audioPath)) ≤ 1 ∧
      "alpha".toList ∈ (tokenFreqs (combinedText c4Args1)).map Prod.fst ∧
      "alpha".toList ∉ (tokenFreqs (combinedText c4Args2)).map Prod.fst) ∧
    ((index_content (index_content initialDB c4Args1) c4Args2).content.length =
      (index_content initialDB c4Args1).content.length) :=
  ⟨⟨rfl, by decide, by decide, by decide⟩,
    (c4_index_content_upsert initialDB c4Args1 c4Args2 "alpha".toList rfl (by decide)
      (by decide) (by decide)).1⟩

set_option maxRecDepth 40000 in
/-- C6 (code bug): on a store holding one Neutral record, the empty query with
the tone filter Neutral returns the empty list, not that record: the token-less
branch builds SQL without a WHERE keyword, appends " AND c.tone = ?", sqlite
raises OperationalError, and the except handler returns [].  The same empty
query with no filter does return the record, showing the store is not empty. -/
theorem c6_empty_query_filter_returns_empty :
    search_content (index_content initialDB c6Args) [] (some "Neutral".toList) none none 10
        = [] ∧
    (∃ r ∈ (index_content initialDB c6Args).content, r.tone = "Neutral".toList) ∧
    search_content (index_content initialDB c6Args) [] none none none 10 ≠ [] :=
  ⟨by decide, by decide, by decide⟩

set_option maxRecDepth 40000 in
/-- C9: URL query preprocessing.  A query that does not match the URL pattern
is returned unchanged; the Wikipedia example extracts the keyword
"Artificial intelligence"; and in general, for a matching query whose last
non-empty, non-boilerplate path segment is part, the result is that segment
with underscores, hyphens and percent-20 sequences replaced by spaces. -/
theorem c9_url_keyword_extraction :
    (∀ q : List Char, matchesUrlPattern q = false → extract_keywords_from_url q = q) ∧
    extract_keywords_from_url "https://en.wikipedia.org/wiki/Artificial_intelligence".toList =
      "Artificial intelligence".toList ∧
    (∀ (q part : List Char), matchesUrlPattern q = true →
      (pySplit '/' (urlPath q)).reverse.find?
          (fun p => !p.isEmpty && !(boilerplateSegments.contains p)) = some part →
      extract_keywords_from_url q = cleanUrlPart part) := by
  refine ⟨?_, by decide, ?_⟩
  · intro q h
    simp only [extract_keywords_from_url, h, Bool.false_eq_true, if_false]
  · intro q part hm hf
    simp only [extract_keywords_from_url, hm, if_true, hf]

end EchoVerse
